import Mathlib

/-!
Shallow embedding of the runner-race simulation (`src/main.rs`) and proofs of
its specified properties.

Real-valued quantities (`f64` in the source) are modelled as rationals `ℚ`;
the random samples (velocity self-estimation error, per-frame orientation) are
modelled as explicit parameters, since the claims quantify over them.  The
infinite interval bounds of the wave table are modelled by an explicit bound
type `FBound` whose comparisons against a finite value mirror the `f64`
comparisons of the source.  The `f64 → usize` cast of Rust saturates: negative
values map to `0` and values above `usize::MAX` to `usize::MAX`; this is
modelled by `f64ToUsize`.
-/

namespace RunnerSim

/-- `const WIDTH: usize = 1920`. -/
def WIDTH : ℕ := 1920

/-- `const HEIGHT: usize = 1080`. -/
def HEIGHT : ℕ := 1080

/-- `const RUNNER_RADIUS: usize = 1`. -/
def RUNNER_RADIUS : ℕ := 1

/-- `const ALIGNED_RUNNERS: usize = 50`. -/
def ALIGNED_RUNNERS : ℕ := 50

/-- `const RUNNER_START_DISTANCE: usize = 2`. -/
def RUNNER_START_DISTANCE : ℕ := 2

/-- `const WAVE_GAP: usize = 20`. -/
def WAVE_GAP : ℕ := 20

/-- `const TRACK_HEIGHT: usize = (ALIGNED_RUNNERS - 1) * RUNNER_START_DISTANCE`. -/
def TRACK_HEIGHT : ℕ := (ALIGNED_RUNNERS - 1) * RUNNER_START_DISTANCE

/-- Largest value of a 64-bit `usize`. -/
def USIZE_MAX : ℕ := 2 ^ 64 - 1

/-- A wave interval bound: either `-INFINITY`, a finite `f64` value (modelled
as a rational), or `INFINITY`. -/
inductive FBound where
  | negInf : FBound
  | fin : ℚ → FBound
  | posInf : FBound
deriving DecidableEq

/-- The `f64` comparison `s >= b` for a finite `s` against a bound `b`. -/
def fbGe (s : ℚ) : FBound → Bool
  | .negInf => true
  | .fin q => decide (q ≤ s)
  | .posInf => false

/-- The `f64` comparison `s < b` for a finite `s` against a bound `b`. -/
def fbLt (s : ℚ) : FBound → Bool
  | .negInf => false
  | .fin q => decide (s < q)
  | .posInf => true

/-- `struct Wave { v_min: f64, v_max: f64, color: u32 }`. -/
structure Wave where
  v_min : FBound
  v_max : FBound
  color : ℕ
deriving DecidableEq

/-- A placeholder wave used as the default of `List.getD`; never selected. -/
def defaultWave : Wave := ⟨.negInf, .posInf, 0⟩

/-- The fixed wave table built by `WaveManager::new`. -/
def waveManagerWaves : List Wave :=
  [ ⟨.negInf, .fin 10, 0xff0000⟩,
    ⟨.fin 10, .fin 12, 0x0000ff⟩,
    ⟨.fin 12, .fin 15, 0x00ff00⟩,
    ⟨.fin 15, .posInf, 0xff00ff⟩ ]

/-- The loop condition of `assign_wave`:
`self_estimated_velocity >= wave.v_min && self_estimated_velocity < wave.v_max`. -/
def waveContains (w : Wave) (s : ℚ) : Bool :=
  fbGe s w.v_min && fbLt s w.v_max

/-- The search loop of `WaveManager::assign_wave`: returns the index of the
first wave containing `s`, or `none`. -/
def findWave (s : ℚ) : List Wave → ℕ → Option ℕ
  | [], _ => none
  | w :: ws, i => if waveContains w s then some i else findWave s ws (i + 1)

/-- `WaveManager::assign_wave`: adds the sampled self-estimation error to the
velocity, scans the wave table for the first match, and falls back to the last
index when nothing matched. -/
def assign_wave (ws : List Wave) (velocity velocityError : ℚ) : ℕ :=
  (findWave (velocity + velocityError) ws 0).getD (ws.length - 1)

/-- The mutable counters `next_i` (row) and `next_j` (column) of the layout
loop in `Race::new`. -/
structure LayoutState where
  next_i : ℕ
  next_j : ℕ
deriving DecidableEq

/-- The starting position `(next_j * RUNNER_START_DISTANCE, next_i * RUNNER_START_DISTANCE)`
assigned to the runner currently being placed. -/
def statePos (s : LayoutState) : ℕ × ℕ :=
  (s.next_j * RUNNER_START_DISTANCE, s.next_i * RUNNER_START_DISTANCE)

/-- The counter update after placing one runner:
`if next_i == ALIGNED_RUNNERS { next_i = 0; next_j += 1 } else { next_i += 1 }`. -/
def placeStep (s : LayoutState) : LayoutState :=
  if s.next_i = ALIGNED_RUNNERS then ⟨0, s.next_j + 1⟩ else ⟨s.next_i + 1, s.next_j⟩

/-- Placing `n` consecutive runners of one wave: the list of assigned positions
(in placement order) and the final counter state. -/
def bandPlace : ℕ → LayoutState → List (ℕ × ℕ) × LayoutState
  | 0, s => ([], s)
  | n + 1, s =>
    (statePos s :: (bandPlace n (placeStep s)).1, (bandPlace n (placeStep s)).2)

/-- The counter update after finishing one wave:
`if next_i != 0 { next_i = 0; next_j += WAVE_GAP + 1 } else { next_j += WAVE_GAP }`. -/
def bandEnd (s : LayoutState) : LayoutState :=
  if s.next_i ≠ 0 then ⟨0, s.next_j + WAVE_GAP + 1⟩ else ⟨s.next_i, s.next_j + WAVE_GAP⟩

/-- The outer layout loop of `Race::new` over the per-wave runner counts:
positions are produced in processing order (wave by wave). -/
def layoutAux : List ℕ → LayoutState → List (ℕ × ℕ)
  | [], _ => []
  | n :: ns, s => (bandPlace n s).1 ++ layoutAux ns (bandEnd (bandPlace n s).2)

/-- The starting positions computed by the layout loop of `Race::new`, given
the wave index of each runner: for each wave index in `0..waves.len()` the
runners of that wave are placed in order, starting from counters `(0, 0)`. -/
def raceLayout (waveIdxs : List ℕ) : List (ℕ × ℕ) :=
  layoutAux ((List.range waveManagerWaves.length).map fun w => waveIdxs.count w) ⟨0, 0⟩

/-- The `dx` (and `dy`) loop range of `Runner::draw`:
`-(RUNNER_RADIUS as isize + 1)..RUNNER_RADIUS as isize`, a half-open range
running from `-(r + 1)` up to and including `r - 1`. -/
def offsetRange (r : ℕ) : List ℤ :=
  (List.range (2 * r + 1)).map fun k => (k : ℤ) - (r + 1)

/-- The offsets `(dx, dy)` for which `Runner::draw` calls `draw_dot`: both
loop ranges, filtered by the disk test `dx*dx + dy*dy <= r*r`. -/
def rasterOffsets (r : ℕ) : List (ℤ × ℤ) :=
  (offsetRange r).flatMap fun dx =>
    (offsetRange r).flatMap fun dy =>
      if dx * dx + dy * dy ≤ (r : ℤ) * r then [(dx, dy)] else []

/-- The Rust cast `x as usize` for an `f64` `x`: truncation toward zero,
saturating at `0` below and at `usize::MAX` above.  (For the non-negative
values arising here truncation agrees with `floor`.) -/
def f64ToUsize (x : ℚ) : ℕ := min ⌊x⌋.toNat USIZE_MAX

/-- The number of horizontal wraps in `draw_dot`: `x as usize / WIDTH`. -/
def wrapCount (x : ℚ) : ℕ := f64ToUsize x / WIDTH

/-- The horizontal pixel coordinate of `draw_dot`: `(x as usize) % WIDTH`. -/
def pixelX (x : ℚ) : ℕ := f64ToUsize x % WIDTH

/-- The vertical pixel coordinate of `draw_dot`:
`y as usize + 2 * ALIGNED_RUNNERS * RUNNER_START_DISTANCE * (x as usize / WIDTH)`. -/
def pixelY (x y : ℚ) : ℕ :=
  f64ToUsize y + 2 * ALIGNED_RUNNERS * RUNNER_START_DISTANCE * wrapCount x

/-- `draw_dot`: writes `color` at linear index `y_mod * WIDTH + x_mod` when
both coordinates are inside the buffer, and does nothing otherwise.  The
buffer is modelled as a list of colors. -/
def draw_dot (x y : ℚ) (buffer : List ℕ) (color : ℕ) : List ℕ :=
  if pixelX x < WIDTH ∧ pixelY x y < HEIGHT then
    buffer.set (pixelY x y * WIDTH + pixelX x) color
  else buffer

/-- A full `f64` input value: NaN, one of the two infinities, or a finite
value (modelled as a rational). -/
inductive F64 where
  | nan : F64
  | negInf : F64
  | posInf : F64
  | fin : ℚ → F64
deriving DecidableEq

/-- The Rust cast `x as usize` on the full `f64` domain: NaN casts to `0`,
`-INFINITY` saturates to `0`, `INFINITY` saturates to `usize::MAX`, and a
finite value truncates toward zero, saturating at both ends. -/
def f64CastUsize : F64 → ℕ
  | .nan => 0
  | .negInf => 0
  | .posInf => USIZE_MAX
  | .fin q => min ⌊q⌋.toNat USIZE_MAX

/-- Wrapping 64-bit multiplication, as release-mode Rust performs on `usize`. -/
def wrapMul (a b : ℕ) : ℕ := a * b % 2 ^ 64

/-- Wrapping 64-bit addition, as release-mode Rust performs on `usize`. -/
def wrapAdd (a b : ℕ) : ℕ := (a + b) % 2 ^ 64

/-- The horizontal pixel coordinate of `draw_dot` on the full `f64` domain:
`(x as usize) % WIDTH`. -/
def pixelXF (x : F64) : ℕ := f64CastUsize x % WIDTH

/-- The vertical pixel coordinate of `draw_dot` on the full `f64` domain,
`y as usize + 2 * ALIGNED_RUNNERS * RUNNER_START_DISTANCE * (x as usize / WIDTH)`,
with every `usize` operation wrapping modulo `2^64` as in release-mode Rust. -/
def pixelYF (x y : F64) : ℕ :=
  wrapAdd (f64CastUsize y)
    (wrapMul (wrapMul (wrapMul 2 ALIGNED_RUNNERS) RUNNER_START_DISTANCE)
      (f64CastUsize x / WIDTH))

/-- `draw_dot` on the full `f64` domain, with wrapping `usize` arithmetic also
in the linear index `y_mod * WIDTH + x_mod`. -/
def draw_dotF (x y : F64) (buffer : List ℕ) (color : ℕ) : List ℕ :=
  if pixelXF x < WIDTH ∧ pixelYF x y < HEIGHT then
    buffer.set (wrapAdd (wrapMul (pixelYF x y) WIDTH) (pixelXF x)) color
  else buffer

/-- The track-boundary reflection of `Runner::draw`:
`if y < 0 { y = -y } else if y > TRACK_HEIGHT { y = 2*TRACK_HEIGHT - y }`. -/
def reflectY (y : ℚ) : ℚ :=
  if y < 0 then -y
  else if y > (TRACK_HEIGHT : ℚ) then 2 * (TRACK_HEIGHT : ℚ) - y
  else y

/-- `struct Runner { x, y, v, t, wave_index }`. -/
structure Runner where
  x : ℚ
  y : ℚ
  v : ℚ
  t : ℚ
  wave_index : ℕ
deriving DecidableEq

/-- The state update of `Runner::draw` at time `t`: displacement by
`v * cos(orientation) * dt` and `v * sin(orientation) * dt` where
`dt = t - self.t`, followed by the boundary reflection on `y` and by
`self.t = t`.  The orientation sample enters only through its cosine and sine,
passed as explicit parameters. -/
def runnerAdvance (r : Runner) (t orientCos orientSin : ℚ) : Runner :=
  { r with
    x := r.x + r.v * orientCos * (t - r.t),
    y := reflectY (r.y + r.v * orientSin * (t - r.t)),
    t := t }

/-- The whole of `Runner::draw`: the state update followed by one `draw_dot`
call per raster offset around the updated position, using the color of the
runner's wave. -/
def runnerDraw (r : Runner) (t orientCos orientSin : ℚ) (buffer : List ℕ) :
    Runner × List ℕ :=
  (runnerAdvance r t orientCos orientSin,
   (rasterOffsets RUNNER_RADIUS).foldl
     (fun b d =>
       draw_dot ((runnerAdvance r t orientCos orientSin).x + (d.1 : ℚ))
         ((runnerAdvance r t orientCos orientSin).y + (d.2 : ℚ)) b
         ((waveManagerWaves.getD r.wave_index defaultWave).color))
     buffer)

/-- The lexicographic rank of a counter state; `placeStep` increases it by
exactly one, and the row never exceeds `ALIGNED_RUNNERS`, so ranks identify
positions. -/
def srank (s : LayoutState) : ℕ :=
  s.next_j * (ALIGNED_RUNNERS + 1) + s.next_i

/-- The rank of an assigned position, recovering the grid cell by dividing out
the spacing. -/
def posRank (p : ℕ × ℕ) : ℕ :=
  (p.1 / RUNNER_START_DISTANCE) * (ALIGNED_RUNNERS + 1) + p.2 / RUNNER_START_DISTANCE

end RunnerSim

namespace RunnerSim

theorem posRank_statePos (s : LayoutState) : posRank (statePos s) = srank s := by
  simp [posRank, statePos, srank, RUNNER_START_DISTANCE,
    Nat.mul_div_cancel_left, Nat.mul_div_cancel]

theorem srank_placeStep (s : LayoutState) : srank (placeStep s) = srank s + 1 := by
  unfold placeStep srank
  split
  · next h => simp [h]; ring
  · simp; ring

theorem placeStep_row_le (s : LayoutState) (hs : s.next_i ≤ ALIGNED_RUNNERS) :
    (placeStep s).next_i ≤ ALIGNED_RUNNERS := by
  unfold placeStep
  split
  · simp
  · next h => simpa using lt_of_le_of_ne hs h

theorem bandEnd_row_le (s : LayoutState) :
    (bandEnd s).next_i ≤ ALIGNED_RUNNERS := by
  unfold bandEnd
  split
  · simp
  · next h => simp [show s.next_i = 0 by omega, ALIGNED_RUNNERS]

theorem srank_le_bandEnd (s : LayoutState) (hs : s.next_i ≤ ALIGNED_RUNNERS) :
    srank s ≤ srank (bandEnd s) := by
  unfold bandEnd srank at *
  split
  · simp only
    have : s.next_i ≤ ALIGNED_RUNNERS := hs
    nlinarith [s.next_j.zero_le]
  · next h => simp only [show s.next_i = 0 by omega]; nlinarith [s.next_j.zero_le]

theorem bandPlace_spec (n : ℕ) (s : LayoutState) (hs : s.next_i ≤ ALIGNED_RUNNERS) :
    (bandPlace n s).2.next_i ≤ ALIGNED_RUNNERS ∧
    srank (bandPlace n s).2 = srank s + n ∧
    (bandPlace n s).1.length = n ∧
    (∀ p ∈ (bandPlace n s).1,
      srank s ≤ posRank p ∧ posRank p < srank (bandPlace n s).2 ∧
      p.2 ≤ ALIGNED_RUNNERS * RUNNER_START_DISTANCE) ∧
    (bandPlace n s).1.Pairwise (fun p q => posRank p < posRank q) := by
  induction n generalizing s with
  | zero =>
    refine ⟨hs, by simp [bandPlace], by simp [bandPlace], ?_, by simp [bandPlace]⟩
    intro p hp
    simp [bandPlace] at hp
  | succ n ih =>
    obtain ⟨h1, h2, h3, h4, h5⟩ := ih (placeStep s) (placeStep_row_le s hs)
    have hstep := srank_placeStep s
    simp only [bandPlace, List.length_cons, List.mem_cons]
    refine ⟨h1, ?_, ?_, ?_, ?_⟩
    · rw [h2, hstep]; ring
    · rw [h3]
    · rintro p (rfl | hp)
      · refine ⟨le_of_eq (posRank_statePos s).symm, ?_, ?_⟩
        · rw [posRank_statePos, h2, hstep]; omega
        · simpa [statePos] using Nat.mul_le_mul_right RUNNER_START_DISTANCE hs
      · obtain ⟨ha, hb, hc⟩ := h4 p hp
        exact ⟨by omega, hb, hc⟩
    · refine List.Pairwise.cons ?_ h5
      intro q hq
      obtain ⟨ha, _, _⟩ := h4 q hq
      rw [posRank_statePos]
      omega

theorem layoutAux_spec (counts : List ℕ) (s : LayoutState)
    (hs : s.next_i ≤ ALIGNED_RUNNERS) :
    (layoutAux counts s).length = counts.sum ∧
    (∀ p ∈ layoutAux counts s,
      srank s ≤ posRank p ∧ p.2 ≤ ALIGNED_RUNNERS * RUNNER_START_DISTANCE) ∧
    (layoutAux counts s).Pairwise (fun p q => posRank p < posRank q) := by
  induction counts generalizing s with
  | nil => simp [layoutAux]
  | cons n ns ih =>
    obtain ⟨b1, b2, b3, b4, b5⟩ := bandPlace_spec n s hs
    obtain ⟨i1, i2, i3⟩ := ih (bandEnd (bandPlace n s).2) (bandEnd_row_le _)
    have hcross : srank (bandPlace n s).2 ≤ srank (bandEnd (bandPlace n s).2) :=
      srank_le_bandEnd _ b1
    refine ⟨?_, ?_, ?_⟩
    · simp [layoutAux, b3, i1]
    · intro p hp
      simp only [layoutAux, List.mem_append] at hp
      rcases hp with hp | hp
      · obtain ⟨ha, _, hc⟩ := b4 p hp
        exact ⟨ha, hc⟩
      · obtain ⟨ha, hc⟩ := i2 p hp
        refine ⟨le_trans ?_ ha, hc⟩
        omega
    · simp only [layoutAux]
      rw [List.pairwise_append]
      refine ⟨b5, i3, ?_⟩
      intro p hp q hq
      obtain ⟨_, hb, _⟩ := b4 p hp
      obtain ⟨ha, _⟩ := i2 q hq
      omega

theorem count_map_sum_split (a : ℕ) (tl : List ℕ) (n : ℕ) :
    (((List.range n).map fun w => (a :: tl).count w).sum)
      = (((List.range n).map fun w => tl.count w).sum)
        + (((List.range n).map fun w => if a = w then 1 else 0).sum) := by
  induction n with
  | zero => simp
  | succ m ihn =>
    rw [List.range_succ]
    simp only [List.map_append, List.sum_append, List.map_cons, List.map_nil,
      List.sum_cons, List.sum_nil]
    rw [ihn]
    have hc : (a :: tl).count m = tl.count m + if a = m then 1 else 0 := by
      by_cases hem : a = m
      · subst hem; simp [List.count_cons]
      · simp [List.count_cons, hem]
    rw [hc]; ring

theorem indicator_range_sum (a : ℕ) : ∀ m : ℕ, a < m →
    (((List.range m).map fun w => if a = w then 1 else 0).sum) = 1 := by
  intro m
  induction m with
  | zero => intro h; omega
  | succ k ihk =>
    intro hk
    rw [List.range_succ]
    simp only [List.map_append, List.sum_append, List.map_cons, List.map_nil,
      List.sum_cons, List.sum_nil]
    rcases Nat.lt_or_ge a k with hlt | hge
    · rw [ihk hlt]
      simp [show a ≠ k by omega]
    · have hak : a = k := by omega
      have hzero : (((List.range k).map fun w => if a = w then 1 else 0).sum) = 0 := by
        apply List.sum_eq_zero
        intro x hx
        simp only [List.mem_map, List.mem_range] at hx
        obtain ⟨w, hw, rfl⟩ := hx
        simp [show a ≠ w by omega]
      rw [hzero]
      simp [hak]

theorem count_complete (n : ℕ) : ∀ ws : List ℕ, (∀ x ∈ ws, x < n) →
    (((List.range n).map fun w => ws.count w).sum) = ws.length := by
  intro ws
  induction ws with
  | nil => intro _; simp
  | cons a tl ih =>
    intro h
    have ha : a < n := h a (List.mem_cons_self a tl)
    have htl : ∀ x ∈ tl, x < n := fun x hx => h x (List.mem_cons_of_mem a hx)
    rw [count_map_sum_split, ih htl, indicator_range_sum a n ha]
    simp

/-- C2: whenever every runner's wave index is a valid index into the wave
table (as `assign_wave` guarantees), the layout loop of `Race::new` computes
one starting position per runner and all the computed starting `(x, y)` pairs
are pairwise distinct. -/
theorem raceLayout_pairwise_ne (waveIdxs : List ℕ)
    (h : ∀ w ∈ waveIdxs, w < waveManagerWaves.length) :
    (raceLayout waveIdxs).length = waveIdxs.length ∧
    (raceLayout waveIdxs).Pairwise (fun p q => p ≠ q) := by
  obtain ⟨h1, _, h3⟩ := layoutAux_spec
    ((List.range waveManagerWaves.length).map fun w => waveIdxs.count w) ⟨0, 0⟩ (by simp)
  constructor
  · rw [raceLayout, h1]
    exact count_complete _ waveIdxs h
  · refine List.Pairwise.imp ?_ h3
    intro p q hpq
    intro hEq
    rw [hEq] at hpq
    exact lt_irrefl _ hpq

/-- Closed instance of `raceLayout_pairwise_ne` on a concrete six-runner
assignment spanning all four waves. -/
theorem raceLayout_pairwise_ne_witness :
    (raceLayout [0, 1, 2, 3, 0, 1]).length = 6 ∧
    (raceLayout [0, 1, 2, 3, 0, 1]).Pairwise (fun p q => p ≠ q) :=
  raceLayout_pairwise_ne [0, 1, 2, 3, 0, 1] (by decide)

/-- C1: for every finite velocity and noise sample, `assign_wave` on the fixed
wave table returns an index that is strictly less than the number of waves, the
returned wave contains the noise-adjusted speed in its half-open interval
`[v_min, v_max)`, and no earlier wave does. -/
theorem assign_wave_first_match (velocity velocityError : ℚ) :
    assign_wave waveManagerWaves velocity velocityError < waveManagerWaves.length ∧
    waveContains
      (waveManagerWaves.getD (assign_wave waveManagerWaves velocity velocityError) defaultWave)
      (velocity + velocityError) = true ∧
    ∀ j < assign_wave waveManagerWaves velocity velocityError,
      waveContains (waveManagerWaves.getD j defaultWave) (velocity + velocityError) = false := by
  by_cases h10 : velocity + velocityError < 10
  · have hi : assign_wave waveManagerWaves velocity velocityError = 0 := by
      simp [assign_wave, findWave, waveManagerWaves, waveContains, fbGe, fbLt, h10]
    rw [hi]
    refine ⟨by simp [waveManagerWaves], ?_, ?_⟩
    · simp [waveManagerWaves, waveContains, fbGe, fbLt, h10]
    · intro j hj; omega
  · by_cases h12 : velocity + velocityError < 12
    · have hi : assign_wave waveManagerWaves velocity velocityError = 1 := by
        simp [assign_wave, findWave, waveManagerWaves, waveContains, fbGe, fbLt, h10, h12,
          le_of_not_lt h10]
      rw [hi]
      refine ⟨by simp [waveManagerWaves], ?_, ?_⟩
      · simp [waveManagerWaves, waveContains, fbGe, fbLt, h12, le_of_not_lt h10]
      · intro j hj
        interval_cases j
        · simp [waveManagerWaves, waveContains, fbGe, fbLt, h10]
    · by_cases h15 : velocity + velocityError < 15
      · have hi : assign_wave waveManagerWaves velocity velocityError = 2 := by
          simp [assign_wave, findWave, waveManagerWaves, waveContains, fbGe, fbLt, h10, h12, h15,
            le_of_not_lt h12]
        rw [hi]
        refine ⟨by simp [waveManagerWaves], ?_, ?_⟩
        · simp [waveManagerWaves, waveContains, fbGe, fbLt, h15, le_of_not_lt h12]
        · intro j hj
          interval_cases j
          · simp [waveManagerWaves, waveContains, fbGe, fbLt, h10]
          · simp [waveManagerWaves, waveContains, fbGe, fbLt, h12]
      · have hi : assign_wave waveManagerWaves velocity velocityError = 3 := by
          simp [assign_wave, findWave, waveManagerWaves, waveContains, fbGe, fbLt, h10, h12, h15,
            le_of_not_lt h15]
        rw [hi]
        refine ⟨by simp [waveManagerWaves], ?_, ?_⟩
        · simp [waveManagerWaves, waveContains, fbGe, fbLt, le_of_not_lt h15]
        · intro j hj
          interval_cases j
          · simp [waveManagerWaves, waveContains, fbGe, fbLt, h10]
          · simp [waveManagerWaves, waveContains, fbGe, fbLt, h12]
          · simp [waveManagerWaves, waveContains, fbGe, fbLt, h15]

/-- Closed instance of `assign_wave_first_match` at velocity 11 with noise 0:
the classifier picks wave 1 and the stated properties hold there. -/
theorem assign_wave_first_match_witness :
    assign_wave waveManagerWaves 11 0 < waveManagerWaves.length ∧
    waveContains (waveManagerWaves.getD (assign_wave waveManagerWaves 11 0) defaultWave)
      (11 + 0) = true ∧
    ∀ j < assign_wave waveManagerWaves 11 0,
      waveContains (waveManagerWaves.getD j defaultWave) (11 + 0) = false :=
  assign_wave_first_match 11 0

/-- C3 counterexample: with 51 runners all in wave 0, the 51st runner is
placed at grid row `ALIGNED_RUNNERS` itself — its starting `y` is
`ALIGNED_RUNNERS * RUNNER_START_DISTANCE = 100`, which is not strictly less
than `ALIGNED_RUNNERS * RUNNER_START_DISTANCE`: the row counter is reset only
after the position at the cap row has already been assigned. -/
theorem raceLayout_row_lt_cap_counterexample :
    ((0 : ℕ), (100 : ℕ)) ∈ raceLayout (List.replicate 51 0) ∧
    ¬ ((100 : ℕ) < ALIGNED_RUNNERS * RUNNER_START_DISTANCE) := by
  constructor
  · decide
  · decide

/-- C3 (amended): every starting position assigned by the layout loop has a
grid row index of at most `ALIGNED_RUNNERS` (the reset fires only after the
cap row has been used), so every starting `y` is at most
`ALIGNED_RUNNERS * RUNNER_START_DISTANCE` and each band column holds at most
`ALIGNED_RUNNERS + 1` runners. -/
theorem raceLayout_row_le_cap (waveIdxs : List ℕ) (p : ℕ × ℕ)
    (hp : p ∈ raceLayout waveIdxs) :
    p.2 ≤ ALIGNED_RUNNERS * RUNNER_START_DISTANCE := by
  unfold raceLayout at hp
  obtain ⟨_, h2, _⟩ := layoutAux_spec
    ((List.range waveManagerWaves.length).map fun w => waveIdxs.count w) ⟨0, 0⟩
    (Nat.zero_le _)
  exact (h2 p hp).2

/-- Closed instance of `raceLayout_row_le_cap`: the single runner of a
one-runner race starts at `(0, 0)`, whose `y` is within the bound. -/
theorem raceLayout_row_le_cap_witness :
    ((0 : ℕ), (0 : ℕ)) ∈ raceLayout [0] ∧
    ((0 : ℕ), (0 : ℕ)).2 ≤ ALIGNED_RUNNERS * RUNNER_START_DISTANCE :=
  ⟨by decide, raceLayout_row_le_cap [0] (0, 0) (by decide)⟩

/-- C4 counterexample: with the source's radius 1, the offset `(1, 0)` lies in
the disk (`1*1 + 0*0 ≤ 1*1`) yet is not among the offsets enumerated by the
raster loops, because the Rust range `-(r+1)..r` is half-open and stops at
`r - 1`: the offset with `dx = RUNNER_RADIUS` is never painted. -/
theorem rasterOffsets_radius_missing :
    ((1 : ℤ) * 1 + 0 * 0 ≤ (RUNNER_RADIUS : ℤ) * RUNNER_RADIUS) ∧
    ((1 : ℤ), (0 : ℤ)) ∉ rasterOffsets RUNNER_RADIUS := by
  constructor
  · decide
  · decide

/-- C4 (amended): the raster loops of `Runner::draw` attempt a `draw_dot`
write exactly at the integer offsets `(dx, dy)` with
`-(RUNNER_RADIUS+1) ≤ dx < RUNNER_RADIUS` and
`-(RUNNER_RADIUS+1) ≤ dy < RUNNER_RADIUS` that satisfy the disk test
`dx² + dy² ≤ RUNNER_RADIUS²`: the ranges extend one unit beyond the radius on
the negative side only, so in-disk offsets with `dx = RUNNER_RADIUS` or
`dy = RUNNER_RADIUS` are skipped. -/
theorem rasterOffsets_mem_iff (dx dy : ℤ) :
    (dx, dy) ∈ rasterOffsets RUNNER_RADIUS ↔
      (-(RUNNER_RADIUS : ℤ) - 1 ≤ dx ∧ dx < (RUNNER_RADIUS : ℤ) ∧
       -(RUNNER_RADIUS : ℤ) - 1 ≤ dy ∧ dy < (RUNNER_RADIUS : ℤ) ∧
       dx * dx + dy * dy ≤ (RUNNER_RADIUS : ℤ) * RUNNER_RADIUS) := by
  have hlist : rasterOffsets RUNNER_RADIUS = [(-1, 0), (0, -1), (0, 0)] := by decide
  have hcast : ((RUNNER_RADIUS : ℕ) : ℤ) = 1 := by norm_num [RUNNER_RADIUS]
  rw [hlist, hcast]
  constructor
  · intro h
    fin_cases h <;> norm_num
  · rintro ⟨h1, h2, h3, h4, h5⟩
    have hb1 : (-2 : ℤ) ≤ dx := by linarith
    have hb2 : dx ≤ 0 := by omega
    have hb3 : (-2 : ℤ) ≤ dy := by linarith
    have hb4 : dy ≤ 0 := by omega
    interval_cases dx <;> interval_cases dy <;> revert h5 <;> decide

/-- C5: a single application of the boundary reflection maps any `y` that is
within one reflection of the track — i.e. `y ∈ [-TRACK_HEIGHT, 2*TRACK_HEIGHT]`
— into `[0, TRACK_HEIGHT]`. -/
theorem reflectY_bounded (y : ℚ) (h1 : -(TRACK_HEIGHT : ℚ) ≤ y)
    (h2 : y ≤ 2 * (TRACK_HEIGHT : ℚ)) :
    0 ≤ reflectY y ∧ reflectY y ≤ (TRACK_HEIGHT : ℚ) := by
  unfold reflectY
  split
  · next h => constructor <;> linarith
  · next h =>
    split
    · next h' => constructor <;> linarith
    · next h' => constructor <;> linarith

/-- Closed instance of `reflectY_bounded` at `y = -5`: the reflected value
lands in `[0, TRACK_HEIGHT]`. -/
theorem reflectY_bounded_witness :
    0 ≤ reflectY (-5) ∧ reflectY (-5) ≤ (TRACK_HEIGHT : ℚ) :=
  reflectY_bounded (-5)
    (by norm_num [TRACK_HEIGHT, ALIGNED_RUNNERS, RUNNER_START_DISTANCE])
    (by norm_num [TRACK_HEIGHT, ALIGNED_RUNNERS, RUNNER_START_DISTANCE])

/-- C6: whenever `x as usize / WIDTH` — the wrap counter of `draw_dot` —
increases by one, the vertical pixel coordinate grows by exactly
`2 * ALIGNED_RUNNERS * RUNNER_START_DISTANCE`, following
`pixel_y = y as usize + 2 * ALIGNED_RUNNERS * RUNNER_START_DISTANCE * (x as usize / WIDTH)`. -/
theorem pixelY_wrap_step (x₁ x₂ y : ℚ) (h : wrapCount x₂ = wrapCount x₁ + 1) :
    pixelY x₂ y = pixelY x₁ y + 2 * ALIGNED_RUNNERS * RUNNER_START_DISTANCE := by
  simp only [pixelY, h]
  ring

/-- Closed instance of `pixelY_wrap_step`: moving from `x = 0` to `x = 1920`
crosses one multiple of `WIDTH` and raises the vertical coordinate by exactly
`2 * 50 * 2 = 200`. -/
theorem pixelY_wrap_step_witness :
    wrapCount (1920 : ℚ) = wrapCount 0 + 1 ∧
    pixelY (1920 : ℚ) 0 = pixelY 0 0 + 2 * ALIGNED_RUNNERS * RUNNER_START_DISTANCE := by
  have h : wrapCount (1920 : ℚ) = wrapCount 0 + 1 := by
    norm_num [wrapCount, f64ToUsize, USIZE_MAX, WIDTH]
    decide
  exact ⟨h, pixelY_wrap_step 0 1920 0 h⟩

/-- C7: when the mapped vertical coordinate of `draw_dot` falls outside the
buffer (the horizontal one, being reduced mod `WIDTH`, never does), the call
leaves the buffer exactly as it was — the write is silently skipped and no
error is raised (the function is total). -/
theorem draw_dot_oob_id (x y : ℚ) (buffer : List ℕ) (color : ℕ)
    (h : HEIGHT ≤ pixelY x y) :
    draw_dot x y buffer color = buffer := by
  unfold draw_dot
  rw [if_neg]
  intro hcon
  exact absurd hcon.2 (not_lt.2 h)

/-- Closed instance of `draw_dot_oob_id`: a dot at `y = 2000` maps below the
buffer and the buffer `[7]` is returned untouched. -/
theorem draw_dot_oob_id_witness :
    HEIGHT ≤ pixelY 0 2000 ∧ draw_dot 0 2000 [7] 5 = [7] := by
  have h : HEIGHT ≤ pixelY 0 2000 := by
    norm_num [pixelY, wrapCount, f64ToUsize, USIZE_MAX, WIDTH, HEIGHT]
  exact ⟨h, draw_dot_oob_id 0 2000 [7] 5 h⟩

/-- C8 counterexample: a runner whose `y` lies above `TRACK_HEIGHT` (such as a
runner started at grid row 50, `y = 100`, by the layout loop) changes position
when `Runner::draw` is called with `t` equal to its last update time: the
displacement is zero, but the reflection step still moves `y` from 100 to 96. -/
theorem runnerAdvance_zero_dt_counterexample :
    (Runner.t ⟨0, 100, 12, 5, 3⟩ = (5 : ℚ)) ∧
    (runnerAdvance ⟨0, 100, 12, 5, 3⟩ 5 1 0).y ≠ (100 : ℚ) := by
  constructor
  · rfl
  · norm_num [runnerAdvance, reflectY, TRACK_HEIGHT, ALIGNED_RUNNERS, RUNNER_START_DISTANCE]

/-- C8 (amended): calling the update step with `t` equal to the runner's last
update time and any orientation sample leaves `x` unchanged, and leaves `y`
unchanged provided `y` lies within the track `[0, TRACK_HEIGHT]`; a `y`
outside that range is still moved by the reflection step even though the
displacement is zero. -/
theorem runnerAdvance_zero_dt (r : Runner) (orientCos orientSin : ℚ)
    (h0 : 0 ≤ r.y) (h1 : r.y ≤ (TRACK_HEIGHT : ℚ)) :
    (runnerAdvance r r.t orientCos orientSin).x = r.x ∧
    (runnerAdvance r r.t orientCos orientSin).y = r.y := by
  unfold runnerAdvance
  constructor
  · simp only
    ring
  · simp only
    have hy : r.y + r.v * orientSin * (r.t - r.t) = r.y := by ring
    rw [hy]
    unfold reflectY
    rw [if_neg (not_lt.2 h0), if_neg (not_lt.2 h1)]

/-- Closed instance of `runnerAdvance_zero_dt`: a runner at `(3, 4)` updated
at its own last update time stays at `(3, 4)`. -/
theorem runnerAdvance_zero_dt_witness :
    (runnerAdvance ⟨3, 4, 12, 7, 2⟩ (Runner.t ⟨3, 4, 12, 7, 2⟩) 1 0).x = (3 : ℚ) ∧
    (runnerAdvance ⟨3, 4, 12, 7, 2⟩ (Runner.t ⟨3, 4, 12, 7, 2⟩) 1 0).y = (4 : ℚ) :=
  runnerAdvance_zero_dt ⟨3, 4, 12, 7, 2⟩ 1 0 (by norm_num)
    (by norm_num [TRACK_HEIGHT, ALIGNED_RUNNERS, RUNNER_START_DISTANCE])

/-- C9: one full `Runner::draw` call mutates only the position and the last
update time: the runner's speed `v` and its `wave_index` after the call equal
their values before the call, for every state, time, orientation sample and
buffer. -/
theorem runnerDraw_preserves_speed_and_wave (r : Runner)
    (t orientCos orientSin : ℚ) (buffer : List ℕ) :
    (runnerDraw r t orientCos orientSin buffer).1.v = r.v ∧
    (runnerDraw r t orientCos orientSin buffer).1.wave_index = r.wave_index :=
  ⟨rfl, rfl⟩

/-- C10: on every `f64` input — negative, NaN, infinite or arbitrarily
large — `draw_dot` either leaves the buffer unchanged or performs exactly one
write, and the written linear index is strictly below `WIDTH * HEIGHT`: no
out-of-bounds buffer access is possible, because `x as usize % WIDTH < WIDTH`
always holds and the write is guarded by `y_mod < HEIGHT` (this covers the
wrapping `usize` arithmetic of release-mode Rust: however `y_mod` came about,
the guard bounds it before the index is formed, and the guarded index
computation itself cannot wrap). -/
theorem draw_dotF_single_write (x y : F64) (buffer : List ℕ) (color : ℕ) :
    draw_dotF x y buffer color = buffer ∨
    ∃ i, i < WIDTH * HEIGHT ∧ draw_dotF x y buffer color = buffer.set i color := by
  unfold draw_dotF
  split
  · next h =>
    right
    refine ⟨wrapAdd (wrapMul (pixelYF x y) WIDTH) (pixelXF x), ?_, rfl⟩
    obtain ⟨hx, hy⟩ := h
    have h64 : (2 : ℕ) ^ 64 = 18446744073709551616 := by norm_num
    simp only [wrapAdd, wrapMul, WIDTH, HEIGHT, h64] at hx hy ⊢
    have hmul : pixelYF x y * 1920 < 18446744073709551616 := by omega
    rw [Nat.mod_eq_of_lt hmul]
    have hadd : pixelYF x y * 1920 + pixelXF x < 18446744073709551616 := by omega
    rw [Nat.mod_eq_of_lt hadd]
    omega
  · left
    rfl

end RunnerSim
